import Mathlib

/-!
Verification development for the NRL fantasy trade calculator
(`fantasy_trade_calculator_deployment/nrl_trade_calculator.py`).

The Python module is shallowly embedded below.  Conventions of the embedding:

* Prices are integers (`ℤ`), exactly as in the source data (`Price` column and
  the bracket bounds 250000 .. 857500).
* `Diff` (value score) and `Projection` are floating-point numbers in the
  source whose thresholds all have at most two decimal places.  They are
  embedded as integers in hundredths (fixed-point): the table constant
  `32.50` becomes `3250`, a value score of `33` becomes `3300`, and so on.
  All comparisons and sums performed by the program are preserved exactly by
  this scaling.
* Dataframe rows are records; missing optional values (`POS2`,
  `bye_round_grade`) are `Option`s.
* Fallible lookups return `Option`.
-/

/-! ## Price brackets (`get_price_bracket`) -/

/-- The nine price bands of `get_price_bracket`, in source order
(bracket 1 .. bracket 9). -/
def nrl_brackets : List (ℤ × ℤ) :=
  [(250000, 317500),
   (317501, 385000),
   (385001, 452500),
   (452501, 520000),
   (520001, 587500),
   (587501, 655000),
   (655001, 722500),
   (722501, 790000),
   (790001, 857500)]

/-- The enumerate-loop of `get_price_bracket`: scan the bands in order and
return the 1-based index of the first band containing `price`. -/
def bracket_scan (price : ℤ) (i : ℕ) : List (ℤ × ℤ) → Option ℕ
  | [] => none
  | (lo, hi) :: rest =>
    if lo ≤ price ∧ price ≤ hi then some (i + 1) else bracket_scan price (i + 1) rest

/-- `get_price_bracket(price)`: bracket ordinal 1..9, or `none` when the price
lies in no band. -/
def get_price_bracket (price : ℤ) : Option ℕ :=
  bracket_scan price 0 nrl_brackets

/-- Unfolding of the nine-step scan into the corresponding decision chain. -/
theorem get_price_bracket_eq (price : ℤ) :
    get_price_bracket price =
      if 250000 ≤ price ∧ price ≤ 317500 then some 1
      else if 317501 ≤ price ∧ price ≤ 385000 then some 2
      else if 385001 ≤ price ∧ price ≤ 452500 then some 3
      else if 452501 ≤ price ∧ price ≤ 520000 then some 4
      else if 520001 ≤ price ∧ price ≤ 587500 then some 5
      else if 587501 ≤ price ∧ price ≤ 655000 then some 6
      else if 655001 ≤ price ∧ price ≤ 722500 then some 7
      else if 722501 ≤ price ∧ price ≤ 790000 then some 8
      else if 790001 ≤ price ∧ price ≤ 857500 then some 9
      else none := by
  simp only [get_price_bracket, nrl_brackets, bracket_scan]

theorem get_price_bracket_range (price : ℤ) (b : ℕ)
    (h : get_price_bracket price = some b) :
    1 ≤ b ∧ b ≤ 9 ∧ 250000 ≤ price ∧ price ≤ 857500 := by
  rw [get_price_bracket_eq] at h
  split_ifs at h with h1 h2 h3 h4 h5 h6 h7 h8 h9 <;>
    (injection h with h; omega)

/-! ## Level requirements (`meets_level_requirements`) -/

/-- The per-(level, bracket) decision of `meets_level_requirements`, after the
bracket has been computed.  `diff` is in hundredths; the source constants
`32.50`, `29.58`, ... appear as `3250`, `2958`, ....  Each `if level == L`
block of the source becomes one branch; the `if bracket == B and lo <= diff
<= hi: return True` lines become a disjunction. -/
def meets_bracket_level (diff : ℤ) (bracket level : ℕ) : Bool :=
  if level = 1 then
    (bracket == 1 && decide (3250 ≤ diff)) ||
    (bracket == 2 && decide (2958 ≤ diff ∧ diff ≤ 3249)) ||
    (bracket == 3 && decide (2667 ≤ diff ∧ diff ≤ 2957)) ||
    (bracket == 4 && decide (2375 ≤ diff ∧ diff ≤ 2666)) ||
    (bracket == 5 && decide (2083 ≤ diff ∧ diff ≤ 2374)) ||
    (bracket == 6 && decide (1792 ≤ diff ∧ diff ≤ 2082)) ||
    (bracket == 7 && decide (1500 ≤ diff ∧ diff ≤ 1791)) ||
    (bracket == 8 && decide (1208 ≤ diff ∧ diff ≤ 1499)) ||
    (bracket == 9 && decide (917 ≤ diff ∧ diff ≤ 1207))
  else if level = 2 then
    (bracket == 1 && decide (2958 ≤ diff ∧ diff ≤ 3249)) ||
    (bracket == 2 && decide (2667 ≤ diff ∧ diff ≤ 2957)) ||
    (bracket == 3 && decide (2375 ≤ diff ∧ diff ≤ 2666)) ||
    (bracket == 4 && decide (2083 ≤ diff ∧ diff ≤ 2374)) ||
    (bracket == 5 && decide (1792 ≤ diff ∧ diff ≤ 2082)) ||
    (bracket == 6 && decide (1500 ≤ diff ∧ diff ≤ 1791)) ||
    (bracket == 7 && decide (1208 ≤ diff ∧ diff ≤ 1499)) ||
    (bracket == 8 && decide (917 ≤ diff ∧ diff ≤ 1207)) ||
    (bracket == 9 && decide (780 ≤ diff ∧ diff ≤ 916))
  else if level = 3 then
    (bracket == 1 && decide (2667 ≤ diff ∧ diff ≤ 2957)) ||
    (bracket == 2 && decide (2375 ≤ diff ∧ diff ≤ 2666)) ||
    (bracket == 3 && decide (2083 ≤ diff ∧ diff ≤ 2374)) ||
    (bracket == 4 && decide (1792 ≤ diff ∧ diff ≤ 2082)) ||
    (bracket == 5 && decide (1500 ≤ diff ∧ diff ≤ 1791)) ||
    (bracket == 6 && decide (1208 ≤ diff ∧ diff ≤ 1499)) ||
    (bracket == 7 && decide (917 ≤ diff ∧ diff ≤ 1207)) ||
    (bracket == 8 && decide (780 ≤ diff ∧ diff ≤ 916))
  else if level = 4 then
    (bracket == 1 && decide (2375 ≤ diff ∧ diff ≤ 2666)) ||
    (bracket == 2 && decide (2083 ≤ diff ∧ diff ≤ 2374)) ||
    (bracket == 3 && decide (1792 ≤ diff ∧ diff ≤ 2082)) ||
    (bracket == 4 && decide (1500 ≤ diff ∧ diff ≤ 1791)) ||
    (bracket == 5 && decide (1208 ≤ diff ∧ diff ≤ 1499)) ||
    (bracket == 6 && decide (917 ≤ diff ∧ diff ≤ 1207)) ||
    (bracket == 7 && decide (780 ≤ diff ∧ diff ≤ 916))
  else if level = 5 then
    (bracket == 1 && decide (2083 ≤ diff ∧ diff ≤ 2374)) ||
    (bracket == 2 && decide (1792 ≤ diff ∧ diff ≤ 2082)) ||
    (bracket == 3 && decide (1500 ≤ diff ∧ diff ≤ 1791)) ||
    (bracket == 4 && decide (1208 ≤ diff ∧ diff ≤ 1499)) ||
    (bracket == 5 && decide (917 ≤ diff ∧ diff ≤ 1207)) ||
    (bracket == 6 && decide (780 ≤ diff ∧ diff ≤ 916))
  else if level = 6 then
    (bracket == 1 && decide (1792 ≤ diff ∧ diff ≤ 2082)) ||
    (bracket == 2 && decide (1500 ≤ diff ∧ diff ≤ 1791)) ||
    (bracket == 3 && decide (1208 ≤ diff ∧ diff ≤ 1499)) ||
    (bracket == 4 && decide (917 ≤ diff ∧ diff ≤ 1207)) ||
    (bracket == 5 && decide (780 ≤ diff ∧ diff ≤ 916))
  else if level = 7 then
    (bracket == 1 && decide (1500 ≤ diff ∧ diff ≤ 1791)) ||
    (bracket == 2 && decide (1208 ≤ diff ∧ diff ≤ 1499)) ||
    (bracket == 3 && decide (917 ≤ diff ∧ diff ≤ 1207)) ||
    (bracket == 4 && decide (780 ≤ diff ∧ diff ≤ 916))
  else if level = 8 then
    (bracket == 1 && decide (1208 ≤ diff ∧ diff ≤ 1499)) ||
    (bracket == 2 && decide (917 ≤ diff ∧ diff ≤ 1207)) ||
    (bracket == 3 && decide (780 ≤ diff ∧ diff ≤ 916))
  else if level = 9 then
    (bracket == 1 && decide (917 ≤ diff ∧ diff ≤ 1207)) ||
    (bracket == 2 && decide (780 ≤ diff ∧ diff ≤ 916))
  else if level = 10 then
    (bracket == 1 && decide (780 ≤ diff ∧ diff ≤ 916))
  else false

/-- `meets_level_requirements(diff, price, level)`: compute the bracket, then
apply the per-level table; a price outside every bracket never qualifies. -/
def meets_level_requirements (diff price : ℤ) (level : ℕ) : Bool :=
  match get_price_bracket price with
  | none => false
  | some bracket => meets_bracket_level diff bracket level

/-- Lower bound (in hundredths) of the qualifying interval as a function of
`level + bracket`; the table of the source is diagonal in this sum. -/
def band_lo (s : ℕ) : ℤ :=
  if s = 2 then 3250
  else if s = 3 then 2958
  else if s = 4 then 2667
  else if s = 5 then 2375
  else if s = 6 then 2083
  else if s = 7 then 1792
  else if s = 8 then 1500
  else if s = 9 then 1208
  else if s = 10 then 917
  else if s = 11 then 780
  else 0

/-- Upper bound (in hundredths) of the qualifying interval as a function of
`level + bracket` (the `s = 2` cell, level 1 bracket 1, has no upper bound). -/
def band_hi (s : ℕ) : ℤ :=
  if s = 3 then 3249
  else if s = 4 then 2957
  else if s = 5 then 2666
  else if s = 6 then 2374
  else if s = 7 then 2082
  else if s = 8 then 1791
  else if s = 9 then 1499
  else if s = 10 then 1207
  else if s = 11 then 916
  else 0

set_option maxHeartbeats 2000000 in
/-- Any `true` cell of the level table lies on the diagonal band of index
`level + bracket`, with `level ∈ [1,10]`, `bracket ∈ [1,9]`,
`level + bracket ≤ 11`, and the value score inside the band's interval. -/
theorem meets_bracket_level_band (diff : ℤ) (b L : ℕ)
    (h : meets_bracket_level diff b L = true) :
    1 ≤ L ∧ 1 ≤ b ∧ b ≤ 9 ∧ L + b ≤ 11 ∧ band_lo (L + b) ≤ diff ∧
      (3 ≤ L + b → diff ≤ band_hi (L + b)) := by
  unfold meets_bracket_level at h
  split_ifs at h with h1 h2 h3 h4 h5 h6 h7 h8 h9 h10
  · subst h1
    simp only [Bool.or_eq_true, Bool.and_eq_true, beq_iff_eq, decide_eq_true_eq] at h
    rcases h with ⟨rfl, h⟩ | ⟨rfl, h⟩ | ⟨rfl, h⟩ | ⟨rfl, h⟩ | ⟨rfl, h⟩ | ⟨rfl, h⟩ |
      ⟨rfl, h⟩ | ⟨rfl, h⟩ | ⟨rfl, h⟩ <;>
      (simp [band_lo, band_hi]; try omega)
  · subst h2
    simp only [Bool.or_eq_true, Bool.and_eq_true, beq_iff_eq, decide_eq_true_eq] at h
    rcases h with ⟨rfl, h⟩ | ⟨rfl, h⟩ | ⟨rfl, h⟩ | ⟨rfl, h⟩ | ⟨rfl, h⟩ | ⟨rfl, h⟩ |
      ⟨rfl, h⟩ | ⟨rfl, h⟩ | ⟨rfl, h⟩ <;>
      (simp [band_lo, band_hi]; try omega)
  · subst h3
    simp only [Bool.or_eq_true, Bool.and_eq_true, beq_iff_eq, decide_eq_true_eq] at h
    rcases h with ⟨rfl, h⟩ | ⟨rfl, h⟩ | ⟨rfl, h⟩ | ⟨rfl, h⟩ | ⟨rfl, h⟩ | ⟨rfl, h⟩ |
      ⟨rfl, h⟩ | ⟨rfl, h⟩ <;>
      (simp [band_lo, band_hi]; try omega)
  · subst h4
    simp only [Bool.or_eq_true, Bool.and_eq_true, beq_iff_eq, decide_eq_true_eq] at h
    rcases h with ⟨rfl, h⟩ | ⟨rfl, h⟩ | ⟨rfl, h⟩ | ⟨rfl, h⟩ | ⟨rfl, h⟩ | ⟨rfl, h⟩ |
      ⟨rfl, h⟩ <;>
      (simp [band_lo, band_hi]; try omega)
  · subst h5
    simp only [Bool.or_eq_true, Bool.and_eq_true, beq_iff_eq, decide_eq_true_eq] at h
    rcases h with ⟨rfl, h⟩ | ⟨rfl, h⟩ | ⟨rfl, h⟩ | ⟨rfl, h⟩ | ⟨rfl, h⟩ | ⟨rfl, h⟩ <;>
      (simp [band_lo, band_hi]; try omega)
  · subst h6
    simp only [Bool.or_eq_true, Bool.and_eq_true, beq_iff_eq, decide_eq_true_eq] at h
    rcases h with ⟨rfl, h⟩ | ⟨rfl, h⟩ | ⟨rfl, h⟩ | ⟨rfl, h⟩ | ⟨rfl, h⟩ <;>
      (simp [band_lo, band_hi]; try omega)
  · subst h7
    simp only [Bool.or_eq_true, Bool.and_eq_true, beq_iff_eq, decide_eq_true_eq] at h
    rcases h with ⟨rfl, h⟩ | ⟨rfl, h⟩ | ⟨rfl, h⟩ | ⟨rfl, h⟩ <;>
      (simp [band_lo, band_hi]; try omega)
  · subst h8
    simp only [Bool.or_eq_true, Bool.and_eq_true, beq_iff_eq, decide_eq_true_eq] at h
    rcases h with ⟨rfl, h⟩ | ⟨rfl, h⟩ | ⟨rfl, h⟩ <;>
      (simp [band_lo, band_hi]; try omega)
  · subst h9
    simp only [Bool.or_eq_true, Bool.and_eq_true, beq_iff_eq, decide_eq_true_eq] at h
    rcases h with ⟨rfl, h⟩ | ⟨rfl, h⟩ <;>
      (simp [band_lo, band_hi]; try omega)
  · subst h10
    simp only [Bool.or_eq_true, Bool.and_eq_true, beq_iff_eq, decide_eq_true_eq] at h
    obtain ⟨rfl, h⟩ := h
    simp [band_lo, band_hi]
    try omega

/-- The ten diagonal bands are strictly separated: a band with a larger index
sits strictly below every band with a smaller index. -/
theorem band_gap : ∀ s < 12, ∀ t < 12, 2 ≤ s → s < t → band_hi t < band_lo s := by
  decide

/-- For fixed `diff` and `price`, at most one level of 1..10 qualifies. -/
theorem meets_level_unique (d p : ℤ) (L L' : ℕ)
    (h : meets_level_requirements d p L = true)
    (h' : meets_level_requirements d p L' = true) : L = L' := by
  unfold meets_level_requirements at h h'
  cases hb : get_price_bracket p with
  | none => rw [hb] at h; exact absurd h (by simp)
  | some b =>
    rw [hb] at h h'
    have H := meets_bracket_level_band d b L h
    have H' := meets_bracket_level_band d b L' h'
    by_contra hne
    rcases Nat.lt_or_ge L L' with hlt | hge
    · have h1 : band_lo (L + b) ≤ d := H.2.2.2.2.1
      have h2 : d ≤ band_hi (L' + b) := H'.2.2.2.2.2 (by omega)
      have h3 := band_gap (L + b) (by omega) (L' + b) (by omega) (by omega) (by omega)
      linarith
    · have hlt' : L' < L := by omega
      have h1 : band_lo (L' + b) ≤ d := H'.2.2.2.2.1
      have h2 : d ≤ band_hi (L + b) := H.2.2.2.2.2 (by omega)
      have h3 := band_gap (L' + b) (by omega) (L + b) (by omega) (by omega) (by omega)
      linarith

/-! ## Player priority (`calculate_player_priority`) -/

/-- `calculate_player_priority(player)`, on the numeric fields it reads:
`diff` (hundredths), `price`, and `bye_grade` (defaulted to 5 by the caller
when the column is absent).  Scans levels 1..10 and returns the sort key
`(level, bracket, -bye_grade, -diff)` at the first qualifying level;
value scores below 7.80 (780 in hundredths) are excluded outright.
When a level qualifies the bracket necessarily exists; the `getD 0` default
is unreachable. -/
def calculate_player_priority (diff price bye_grade : ℤ) : Option (ℕ × ℕ × ℤ × ℤ) :=
  if diff < 780 then none
  else
    match (List.range' 1 10).find? (fun level => meets_level_requirements diff price level) with
    | some level => some (level, (get_price_bracket price).getD 0, -bye_grade, -diff)
    | none => none

set_option maxHeartbeats 1000000 in
/-- Claim C6: `get_price_bracket` returns an ordinal in 1..9 for every integer
price inside the nine bands, which tile `[250000, 857500]` contiguously and
without overlap (the scan is single-valued, and every in-range integer price
is covered), and it returns `none` for every price strictly below 250000 or
strictly above 857500. -/
theorem get_price_bracket_total_on_bands :
    (∀ price : ℤ, price < 250000 ∨ 857500 < price → get_price_bracket price = none) ∧
    (∀ price : ℤ, 250000 ≤ price → price ≤ 857500 →
      ∃ b, get_price_bracket price = some b ∧ 1 ≤ b ∧ b ≤ 9) ∧
    (∀ price : ℤ, ∀ b : ℕ, get_price_bracket price = some b →
      1 ≤ b ∧ b ≤ 9 ∧ 250000 ≤ price ∧ price ≤ 857500) := by
  refine ⟨?_, ?_, ?_⟩
  · intro price hp
    rw [get_price_bracket_eq]
    split_ifs with h1 h2 h3 h4 h5 h6 h7 h8 h9 <;> first | rfl | omega
  · intro price hlo hhi
    rw [get_price_bracket_eq]
    split_ifs with h1 h2 h3 h4 h5 h6 h7 h8 h9
    · exact ⟨1, rfl, by omega, by omega⟩
    · exact ⟨2, rfl, by omega, by omega⟩
    · exact ⟨3, rfl, by omega, by omega⟩
    · exact ⟨4, rfl, by omega, by omega⟩
    · exact ⟨5, rfl, by omega, by omega⟩
    · exact ⟨6, rfl, by omega, by omega⟩
    · exact ⟨7, rfl, by omega, by omega⟩
    · exact ⟨8, rfl, by omega, by omega⟩
    · exact ⟨9, rfl, by omega, by omega⟩
    · omega
  · exact fun price b h => get_price_bracket_range price b h

/-- Witness for C6 at concrete prices: price 0 is below every band. -/
theorem get_price_bracket_total_on_bands_witness : get_price_bracket 0 = none :=
  get_price_bracket_total_on_bands.1 0 (Or.inl (by decide))

/-- Claim C9: for every value score and price, `meets_level_requirements`
holds for at most one level, and the level found by
`calculate_player_priority`'s scan from level 1 upward is the unique
qualifying level. -/
theorem priority_level_unique :
    (∀ d p : ℤ, ∀ L L' : ℕ, meets_level_requirements d p L = true →
        meets_level_requirements d p L' = true → L = L') ∧
    (∀ d p g : ℤ, ∀ lvl br : ℕ, ∀ nb nd : ℤ,
        calculate_player_priority d p g = some (lvl, br, nb, nd) →
        meets_level_requirements d p lvl = true ∧
          ∀ L, meets_level_requirements d p L = true → L = lvl) := by
  constructor
  · exact meets_level_unique
  · intro d p g lvl br nb nd h
    unfold calculate_player_priority at h
    split_ifs at h with hd
    cases hf : (List.range' 1 10).find? (fun level => meets_level_requirements d p level) with
    | none => rw [hf] at h; exact absurd h (by simp)
    | some lv =>
      rw [hf] at h
      have hlv : lv = lvl := by
        have := h
        simp only [Option.some.injEq, Prod.mk.injEq] at this
        exact this.1
      subst hlv
      have hmeets : meets_level_requirements d p lv = true := List.find?_some hf
      exact ⟨hmeets, fun L hL => meets_level_unique d p L lv hL hmeets⟩

/-- Witness for C9: a player with value score 33.00 at price 300000 qualifies
at level 1, and `calculate_player_priority` reports exactly that level. -/
theorem priority_level_unique_witness :
    meets_level_requirements 3300 300000 1 = true :=
  (priority_level_unique.2 3300 300000 5 1 1 (-5) (-3300) (by decide)).1

/-- Bracket-eligibility ceiling of a level: levels 1 and 2 admit brackets up
to 9, and each further level drops the top bracket (level `L` admits brackets
up to `min 9 (11 - L)`). -/
def level_bracket_ceiling (L : ℕ) : ℕ := min 9 (11 - L)

/-- Counterexample to claim C4 as stated: value score 8.00 at price 300000
(bracket 1) satisfies level 10's requirement but not level 1's, so the
bracket-1 interval of level 10 is not a subset of level 1's. -/
theorem level_subset_counterexample :
    meets_level_requirements 800 300000 10 = true ∧
    meets_level_requirements 800 300000 1 = false := by
  constructor <;> decide

/-- Claim C4 (amended): if a player qualifies at level `L` they cannot qualify
at a higher level `L'` in a bracket above `L`'s ceiling (bracket eligibility
narrows as the level increases); however, the bracket-1 intervals of level 10
and level 1 are disjoint rather than nested: a bracket-1 score meeting
level 10's requirement never meets level 1's. -/
theorem level_requirements_narrowing :
    (∀ d p : ℤ, ∀ L L' b : ℕ, meets_level_requirements d p L = true → L < L' →
      ¬(meets_level_requirements d p L' = true ∧ get_price_bracket p = some b ∧
        level_bracket_ceiling L < b)) ∧
    (∀ d p : ℤ, get_price_bracket p = some 1 →
      meets_level_requirements d p 10 = true →
      meets_level_requirements d p 1 = false) := by
  constructor
  · rintro d p L L' b hL hLL' ⟨hL', hb, hceil⟩
    unfold meets_level_requirements at hL'
    rw [hb] at hL'
    have H' := meets_bracket_level_band d b L' hL'
    unfold level_bracket_ceiling at hceil
    omega
  · intro d p hb h10
    cases h1 : meets_level_requirements d p 1 with
    | false => rfl
    | true => exact absurd (meets_level_unique d p 10 1 h10 h1) (by omega)

/-- Witness for C4 at concrete inputs: value score 8.00 at price 300000 meets
level 10, hence (by the amended claim) does not meet level 1. -/
theorem level_requirements_narrowing_witness :
    meets_level_requirements 800 300000 1 = false :=
  level_requirements_narrowing.2 800 300000 (by decide) (by decide)

/-- Counterexample to claim C3 as stated: a player with value score 8.00 at
price 300000 is not excluded from hybrid ranking — `calculate_player_priority`
does not return `none` for it. -/
theorem hybrid_priority_counterexample :
    calculate_player_priority 800 300000 5 ≠ none := by decide

/-- Claim C3 (amended): under the hybrid strategy, a player at price 300000
(bracket 1) with value score 33.00 qualifies at level 1, and
`calculate_player_priority` returns level 1; a player at the same price with
value score 8.00 qualifies at level 10 (not at levels 1-9), and
`calculate_player_priority` returns level 10 rather than `none` (bye grade 5
in both cases; scores in hundredths). -/
theorem hybrid_priority_scenario :
    calculate_player_priority 3300 300000 5 = some (1, 1, -5, -3300) ∧
    calculate_player_priority 800 300000 5 = some (10, 1, -5, -800) := by
  constructor <;> decide

/-! ## Abbreviated-name expansion (`match_abbreviated_name_to_full`) -/

/-- `s.split(sep, 1)` when the separator occurs (the two parts), `none` when
it does not (Python then returns the one-element list `[s]`). -/
def split_once_aux (sep : List Char) : List Char → List Char → Option (List Char × List Char)
  | [], _ => none
  | c :: cs, acc =>
    if sep.isPrefixOf (c :: cs) then some (acc.reverse, (c :: cs).drop sep.length)
    else split_once_aux sep cs (c :: acc)

def split_once (sep s : String) : Option (String × String) :=
  match split_once_aux sep.toList s.toList [] with
  | none => none
  | some (a, b) => some (String.mk a, String.mk b)

/-- `str.upper()` on the ASCII range used by player names. -/
def str_upper (s : String) : String := String.mk (s.toList.map Char.toUpper)

/-- The match test of the loop body.  Python short-circuits the `and`: it
first tests `last_name == surname` and only if that passes indexes
`first_name[0]`.  When the first-name part is empty (a candidate name
starting with a space) and the surname part matches, `first_name[0]` raises
IndexError — modelled as `none`.  `some b` is the test completing normally
with result `b`. -/
def name_matches (initial surname player_name : String) : Option Bool :=
  match split_once " " player_name with
  | none => some false
  | some (first_name, last_name) =>
    if last_name = surname then
      match first_name.toList with
      | [] => none
      | c :: _ => some (decide (str_upper (String.mk [c]) = str_upper initial))
    else some false

/-- The name-scanning loop of `match_abbreviated_name_to_full`.  The outer
`Option` is the crash path: `none` means a candidate raised IndexError
before any match was found, so the exception propagates; `some (some full)`
is the early `return full`; `some none` is the loop finishing with no
match.  The source iterates `all_players['Player'].unique()`, which keeps
first occurrences in order, so scanning the raw name list reaches the same
first match or first crash. -/
def find_matching_player (initial surname : String) :
    List String → Option (Option String)
  | [] => some none
  | pn :: rest =>
    match name_matches initial surname pn with
    | none => none
    | some true => some (some pn)
    | some false => find_matching_player initial surname rest

/-- `match_abbreviated_name_to_full(abbreviated_name, all_players)`.
`some s` is a normal return of `s`; `none` is the uncaught IndexError raised
inside the scan (see `name_matches`), which propagates out of the
function. -/
def match_abbreviated_name_to_full (abbreviated_name : String)
    (all_players : List String) : Option String :=
  if abbreviated_name ∈ all_players then some abbreviated_name
  else
    match split_once ". " abbreviated_name with
    | none => some abbreviated_name
    | some (initial, surname) =>
      match find_matching_player initial surname all_players with
      | none => none
      | some (some full_name) => some full_name
      | some none => some abbreviated_name

theorem find_matching_player_all_false (initial surname : String) :
    ∀ names : List String,
      (∀ n ∈ names, name_matches initial surname n = some false) →
      find_matching_player initial surname names = some none := by
  intro names
  induction names with
  | nil => intro _; rfl
  | cons pn rest ih =>
    intro h
    have hpn := h pn (List.mem_cons_self _ _)
    simp only [find_matching_player, hpn]
    exact ih fun n hn => h n (List.mem_cons_of_mem _ hn)

theorem find_matching_player_append (initial surname : String) :
    ∀ (l rest : List String),
      (∀ m ∈ l, name_matches initial surname m = some false) →
      find_matching_player initial surname (l ++ rest) =
        find_matching_player initial surname rest := by
  intro l
  induction l with
  | nil => intro rest _; rfl
  | cons m ms ih =>
    intro rest h
    have hm := h m (List.mem_cons_self _ _)
    simp only [List.cons_append, find_matching_player, hm]
    exact ih rest fun x hx => h x (List.mem_cons_of_mem _ hx)

/-- Counterexample to claim C8 as stated: with the dataset name `" Smith"`
(whose first-name part under `split(' ', 1)` is empty) and input
`"J. Smith"`, the surname test passes and `first_name[0]` raises
IndexError — the function fails instead of returning the original input
unchanged. -/
theorem abbreviated_name_crash_counterexample :
    match_abbreviated_name_to_full "J. Smith" [" Smith"] = none := by decide

/-- Claim C8 (amended): abbreviated-name expansion is first-match-wins on
exact surname plus case-insensitive first initial; an input that does not
parse as `I. Surname`, or matches no dataset name, is returned unchanged —
unless, before any match, the scan reaches a candidate with an empty
first-name part whose surname part equals the searched surname: that
candidate makes the source raise IndexError (the `none` result) instead of
returning. -/
theorem abbreviated_name_first_match :
    (∀ (input : String) (names : List String),
      split_once ". " input = none →
        match_abbreviated_name_to_full input names = some input) ∧
    (∀ (input : String) (names : List String) (initial surname : String),
      split_once ". " input = some (initial, surname) →
      input ∉ names →
      ((∀ n ∈ names, name_matches initial surname n = some false) →
          match_abbreviated_name_to_full input names = some input) ∧
      (∀ (l : List String) (n : String) (r : List String),
          names = l ++ n :: r →
          name_matches initial surname n = some true →
          (∀ m ∈ l, name_matches initial surname m = some false) →
          match_abbreviated_name_to_full input names = some n) ∧
      (∀ (l : List String) (n : String) (r : List String),
          names = l ++ n :: r →
          name_matches initial surname n = none →
          (∀ m ∈ l, name_matches initial surname m = some false) →
          match_abbreviated_name_to_full input names = none)) := by
  constructor
  · intro input names h
    by_cases hin : input ∈ names
    · simp [match_abbreviated_name_to_full, hin]
    · simp [match_abbreviated_name_to_full, hin, h]
  · intro input names initial surname hsplit hnot
    refine ⟨?_, ?_, ?_⟩
    · intro hall
      have hfind := find_matching_player_all_false initial surname names hall
      simp [match_abbreviated_name_to_full, hnot, hsplit, hfind]
    · intro l n r hnames hn hl
      have hfind : find_matching_player initial surname names = some (some n) := by
        subst hnames
        rw [find_matching_player_append initial surname l (n :: r) hl]
        simp only [find_matching_player, hn]
      simp [match_abbreviated_name_to_full, hnot, hsplit, hfind]
    · intro l n r hnames hn hl
      have hfind : find_matching_player initial surname names = none := by
        subst hnames
        rw [find_matching_player_append initial surname l (n :: r) hl]
        simp only [find_matching_player, hn]
      simp [match_abbreviated_name_to_full, hnot, hsplit, hfind]

/-- Witness for C8: `"A. Fonua-Blake"` resolves to the first surname+initial
match in the dataset, with no crashing candidate ahead of it. -/
theorem abbreviated_name_first_match_witness :
    match_abbreviated_name_to_full "A. Fonua-Blake"
      ["Xavier Coates", "Addin Fonua-Blake"] = some "Addin Fonua-Blake" :=
  ((abbreviated_name_first_match.2 "A. Fonua-Blake"
      ["Xavier Coates", "Addin Fonua-Blake"] "A" "Fonua-Blake"
      (by decide) (by decide)).2.1
    ["Xavier Coates"] "Addin Fonua-Blake" [] (by decide) (by decide)
    (by decide))

/-! ## Lockout (`get_locked_out_players`, `is_player_locked`) -/

/-- A parsed timestamp; comparison of Python `datetime` objects for valid
dates is lexicographic on these fields. -/
structure DateTime where
  year : ℕ
  month : ℕ
  day : ℕ
  hour : ℕ
  minute : ℕ
deriving DecidableEq

def dt_le (a b : DateTime) : Bool :=
  if a.year ≠ b.year then decide (a.year < b.year)
  else if a.month ≠ b.month then decide (a.month < b.month)
  else if a.day ≠ b.day then decide (a.day < b.day)
  else if a.hour ≠ b.hour then decide (a.hour < b.hour)
  else decide (a.minute ≤ b.minute)

/-- The `FIXTURES` table with kickoff strings parsed. -/
def FIXTURES : List (DateTime × List String) :=
  [(⟨2025, 8, 7, 19, 50⟩, ["MEL", "BRI"]),
   (⟨2025, 8, 8, 18, 0⟩, ["NEW", "PEN"]),
   (⟨2025, 8, 8, 20, 0⟩, ["CAN", "MAN"]),
   (⟨2025, 8, 9, 15, 0⟩, ["SGI", "CRO"]),
   (⟨2025, 8, 9, 17, 30⟩, ["DOL", "SYD"]),
   (⟨2025, 8, 9, 19, 35⟩, ["CBY", "WAR"]),
   (⟨2025, 8, 10, 14, 0⟩, ["GLD", "SOU"]),
   (⟨2025, 8, 10, 16, 5⟩, ["PAR", "NQL"])]

/-- A dataset row, restricted to the columns the lockout functions read. -/
structure DataRow where
  round : ℤ
  player : String
  team : String
deriving DecidableEq

/-- `consolidated_data.sort_values('Round').groupby('Player').last()` for one
player: the row with the greatest `Round`, later rows winning ties (the
stable sort keeps original order within a round, and `last()` takes the final
row). -/
def latest_row_for (data : List DataRow) (name : String) : Option DataRow :=
  (data.filter (fun r => decide (r.player = name))).foldl
    (fun acc r =>
      match acc with
      | none => some r
      | some b => if b.round ≤ r.round then some r else some b) none

/-- The teams whose fixture kickoff is at or before the reference time. -/
def locked_out_teams (t : DateTime) : List String :=
  (FIXTURES.filter (fun f => dt_le f.1 t)).flatMap (fun f => f.2)

/-- `get_locked_out_players(simulate_datetime, consolidated_data)` as the set
of player names whose latest-round team is locked; the source gathers, per
locked team, the players of that team from the one-row-per-player latest-round
table, which yields exactly this set. -/
def get_locked_out_players (simulate_datetime : Option DateTime)
    (data : List DataRow) : List String :=
  match simulate_datetime with
  | none => []
  | some t =>
    ((data.map DataRow.player).dedup).filter (fun n =>
      match latest_row_for data n with
      | some r => decide (r.team ∈ locked_out_teams t)
      | none => false)

/-- `is_player_locked(player_name, consolidated_data, simulate_datetime)`. -/
def is_player_locked (player_name : String) (data : List DataRow)
    (simulate_datetime : Option DateTime) : Bool :=
  match simulate_datetime with
  | none => false
  | some t =>
    match latest_row_for data player_name with
    | none => false
    | some r => decide (r.team ∈ locked_out_teams t)

theorem latest_row_aux (P : DataRow → Prop) :
    ∀ (l : List DataRow) (acc : Option DataRow),
      (∀ b, acc = some b → P b) → (∀ x ∈ l, P x) →
      ∀ r, l.foldl (fun acc r =>
        match acc with
        | none => some r
        | some b => if b.round ≤ r.round then some r else some b) acc = some r → P r := by
  intro l
  induction l with
  | nil => intro acc hacc _ r h; exact hacc r h
  | cons x xs ih =>
    intro acc hacc hl r h
    simp only [List.foldl_cons] at h
    refine ih _ ?_ (fun y hy => hl y (List.mem_cons_of_mem _ hy)) r h
    intro b hb
    cases acc with
    | none =>
      simp only [Option.some.injEq] at hb
      exact hb ▸ hl x (List.mem_cons_self x xs)
    | some a =>
      by_cases hle : a.round ≤ x.round
      · simp only [if_pos hle, Option.some.injEq] at hb
        exact hb ▸ hl x (List.mem_cons_self x xs)
      · simp only [if_neg hle, Option.some.injEq] at hb
        exact hb ▸ hacc a rfl

theorem latest_row_for_mem (data : List DataRow) (name : String) (r : DataRow)
    (h : latest_row_for data name = some r) : r ∈ data ∧ r.player = name := by
  refine latest_row_aux (fun r => r ∈ data ∧ r.player = name) _ none
    (fun b hb => by simp at hb) ?_ r h
  intro x hx
  rw [List.mem_filter] at hx
  exact ⟨hx.1, by simpa using hx.2⟩

/-- Claim C7: no reference time means nothing is locked; a team is locked
exactly when some fixture at or before the reference time lists it; a player
is locked exactly when they are in the locked-out player set (their
latest-round team is locked); and on the concrete fixture
`("2025-08-07 19:50", [MEL, BRI])` a MEL player is locked at reference time
19:50 and not locked at 19:49. -/
theorem lockout_semantics :
    (∀ (name : String) (data : List DataRow), is_player_locked name data none = false) ∧
    (∀ data : List DataRow, get_locked_out_players none data = []) ∧
    (∀ (team : String) (t : DateTime),
      team ∈ locked_out_teams t ↔
        ∃ f ∈ FIXTURES, dt_le f.1 t = true ∧ team ∈ f.2) ∧
    (∀ (name : String) (data : List DataRow) (t : DateTime),
      is_player_locked name data (some t) = true ↔
        name ∈ get_locked_out_players (some t) data) ∧
    (is_player_locked "Harry" [⟨1, "Harry", "MEL"⟩] (some ⟨2025, 8, 7, 19, 50⟩) = true ∧
     is_player_locked "Harry" [⟨1, "Harry", "MEL"⟩] (some ⟨2025, 8, 7, 19, 49⟩) = false) := by
  refine ⟨fun _ _ => rfl, fun _ => rfl, ?_, ?_, by decide, by decide⟩
  · intro team t
    simp only [locked_out_teams, List.mem_flatMap, List.mem_filter]
    constructor
    · rintro ⟨f, ⟨hf, hle⟩, hteam⟩
      exact ⟨f, hf, by simpa using hle, hteam⟩
    · rintro ⟨f, hf, hle, hteam⟩
      exact ⟨f, ⟨hf, by simpa using hle⟩, hteam⟩
  · intro name data t
    unfold is_player_locked get_locked_out_players
    cases hl : latest_row_for data name with
    | none =>
      simp only [List.mem_filter, hl]
      constructor
      · intro h; exact absurd h (by simp)
      · rintro ⟨-, h⟩; exact absurd h (by simp)
    | some r =>
      have hmem := latest_row_for_mem data name r hl
      simp only [List.mem_filter, hl, List.mem_dedup, decide_eq_true_eq]
      constructor
      · intro h
        refine ⟨List.mem_map.2 ⟨r, hmem.1, hmem.2⟩, ?_⟩
        simpa using h
      · rintro ⟨-, h⟩
        simpa using h

/-! ## Trade generation (`generate_trade_options` and helpers)

A candidate-pool row, after `generate_trade_options` has coerced the numeric
columns (`pd.to_numeric(...).fillna(0)`).  `Diff` and `Projection` are in
hundredths, as everywhere in this file. -/

structure Row where
  player : String
  team : String
  pos1 : String
  pos2 : Option String
  price : ℤ
  diff : ℤ
  projection : ℤ
  bye_round_grade : Option ℤ
deriving DecidableEq

/-- The serialisable player record built by `create_player_dict`. -/
structure PlayerDict where
  name : String
  team : String
  position : String
  secondary_position : Option String
  price : ℤ
  projection : ℤ
  diff : ℤ
  bye_round_grade : Option ℤ
deriving DecidableEq

def create_player_dict (r : Row) : PlayerDict :=
  { name := r.player
    team := r.team
    position := r.pos1
    secondary_position := r.pos2
    price := r.price
    projection := r.projection
    diff := r.diff
    bye_round_grade := r.bye_round_grade }

/-- A trade combination as built by `create_combination`. -/
structure Combo where
  players : List PlayerDict
  total_price : ℤ
  total_projection : ℤ
  total_diff : ℤ
  salary_remaining : ℤ
deriving DecidableEq

def create_combination (ps : List Row) (total_price salary_freed : ℤ) : Combo :=
  { players := ps.map create_player_dict
    total_price := total_price
    total_projection := (ps.map Row.projection).sum
    total_diff := (ps.map Row.diff).sum
    salary_remaining := salary_freed - total_price }

/-- The two shapes `traded_out_positions` can take: the legacy flat list of
position codes, or the per-trade-out-player requirement groups (only their
`required_positions` lists matter to the check). -/
inductive TOFormat where
  | strs (required : List String)
  | dicts (groups : List (List String))
deriving DecidableEq

/-- The `position_mapping` dict: built by inserting each row keyed by player
name, so a later row with the same name overwrites an earlier one — the
lookup resolves to the last row carrying the name.  `POS2` contributes only
when present. -/
def position_mapping (players : List Row) (name : String) : List String :=
  match players.reverse.find? (fun r => decide (r.player = name)) with
  | some r => r.pos1 :: r.pos2.toList
  | none => []

/-- `has_valid_position(player, valid_positions)`. -/
def has_valid_position (posOf : String → List String) (r : Row)
    (valid_positions : List String) : Bool :=
  (posOf r.player).any (fun pos => decide (pos ∈ valid_positions))

/-- The six canonical position codes of the per-player branch. -/
def all_positions : List String := ["HOK", "MID", "EDG", "HLF", "CTR", "WFB"]

/-- Remove the first element satisfying `p`; `none` when no element does. -/
def remove_first {α : Type} (p : α → Bool) : List α → Option (List α)
  | [] => none
  | x :: xs => if p x then some xs else (remove_first p xs).map (fun ys => x :: ys)

/-- The greedy assignment loop of the per-player branch: walk the trade-in
players in combination order; a player already used (same name) is skipped;
otherwise the first still-unsatisfied group whose positions intersect the
player's positions is removed and the player's name marked used.  Returns the
groups left unsatisfied. -/
def greedy_assign (posOf : String → List String) :
    List Row → List (List String) → List String → List (List String)
  | [], reqs, _ => reqs
  | p :: rest, reqs, used =>
    if p.player ∈ used then greedy_assign posOf rest reqs used
    else
      match remove_first (fun req => req.any (fun pos => decide (pos ∈ posOf p.player))) reqs with
      | some reqs2 => greedy_assign posOf rest reqs2 (p.player :: used)
      | none => greedy_assign posOf rest reqs used

/-- `is_valid_trade_combo(player_combo)`.  A falsy (`None` or empty)
`traded_out_positions` accepts everything.  In the per-player (dict) format:
every trade-in player must hold one of the six canonical codes, the non-empty
requirement groups are collected, and the greedy assignment must satisfy them
all.  In the legacy format: every player must hold a required position and
the set of required codes covered by the combination must equal the required
set. -/
def is_valid_trade_combo (posOf : String → List String) (topt : Option TOFormat)
    (player_combo : List Row) : Bool :=
  match topt with
  | none => true
  | some (TOFormat.dicts groups) =>
    if groups.isEmpty then true
    else if !(player_combo.all (fun p => has_valid_position posOf p all_positions)) then
      false
    else
      let unsatisfied_requirements := groups.filter (fun g => !g.isEmpty)
      if unsatisfied_requirements.isEmpty then true
      else (greedy_assign posOf player_combo unsatisfied_requirements []).isEmpty
  | some (TOFormat.strs required) =>
    if required.isEmpty then true
    else if !(player_combo.all (fun p => has_valid_position posOf p required)) then
      false
    else
      let positions_covered := player_combo.flatMap
        (fun p => (posOf p.player).filter (fun pos => decide (pos ∈ required)))
      required.all (fun pos => decide (pos ∈ positions_covered)) &&
        positions_covered.all (fun pos => decide (pos ∈ required))

/-- `calculate_player_priority(player)` on a pool row; a missing
`bye_round_grade` defaults to 5 (worst). -/
def row_priority (r : Row) : Option (ℕ × ℕ × ℤ × ℤ) :=
  calculate_player_priority r.diff r.price (r.bye_round_grade.getD 5)

/-- Lexicographic comparison of the priority sort keys
`(level, bracket, -bye_grade, -diff)`. -/
def priority_key_le (a b : ℕ × ℕ × ℤ × ℤ) : Bool :=
  if a.1 ≠ b.1 then decide (a.1 < b.1)
  else if a.2.1 ≠ b.2.1 then decide (a.2.1 < b.2.1)
  else if a.2.2.1 ≠ b.2.2.1 then decide (a.2.2.1 < b.2.2.1)
  else decide (a.2.2.2 ≤ b.2.2.2)

def row_priority_le (a b : Row) : Bool :=
  priority_key_le ((row_priority a).getD (0, 0, 0, 0)) ((row_priority b).getD (0, 0, 0, 0))

/-- The `num_players_needed == 1` loop: scan the sorted players; an affordable
player forming a position-valid singleton is accepted and marked used; stop
once `max_options` combinations are collected. -/
def single_trades (valid : List Row → Bool) (salary_freed : ℤ) (max_options : ℕ) :
    List Row → List String → List Combo → List Combo
  | [], _, acc => acc
  | p :: rest, used, acc =>
    if p.player ∈ used then single_trades valid salary_freed max_options rest used acc
    else if p.price ≤ salary_freed ∧ valid [p] = true then
      if max_options ≤ (acc ++ [create_combination [p] p.price salary_freed]).length then
        acc ++ [create_combination [p] p.price salary_freed]
      else single_trades valid salary_freed max_options rest (p.player :: used)
        (acc ++ [create_combination [p] p.price salary_freed])
    else single_trades valid salary_freed max_options rest used acc

/-- `enumerate(players)`: rows paired with their indices (the nested scans of
the projection and value branches compare indices, not names). -/
def enumerate_from (i : ℕ) : List Row → List (ℕ × Row)
  | [] => []
  | r :: rs => (i, r) :: enumerate_from (i + 1) rs

/-- The inner scan of the projection (`maximize_base`) branch: find the best
second player for `first` (index `i`).  In normal mode the scan breaks at the
first valid affordable candidate; in `target_bye_round` mode it keeps
scanning and prefers a smaller index, which never replaces the first hit
because indices only grow — both are modelled faithfully. -/
def find_second_base (first : Row) (i : ℕ) (valid : List Row → Bool)
    (salary_freed : ℤ) (used : List String) (target_bye_round : Bool) :
    List (ℕ × Row) → Option (ℕ × Row) → Option (ℕ × Row)
  | [], best => best
  | (j, q) :: rest, best =>
    if j = i ∨ q.player ∈ used then
      find_second_base first i valid salary_freed used target_bye_round rest best
    else if valid [first, q] = false then
      find_second_base first i valid salary_freed used target_bye_round rest best
    else if first.price + q.price ≤ salary_freed then
      match best with
      | none =>
        if target_bye_round then
          find_second_base first i valid salary_freed used target_bye_round rest (some (j, q))
        else some (j, q)
      | some b =>
        if target_bye_round then
          find_second_base first i valid salary_freed used target_bye_round rest
            (if target_bye_round ∧ j < b.1 then some (j, q) else some b)
        else some b
    else find_second_base first i valid salary_freed used target_bye_round rest best

/-- The `maximize_base` outer loop over enumerated first players. -/
def base_pairs (valid : List Row → Bool) (salary_freed : ℤ) (max_options : ℕ)
    (target_bye_round : Bool) (all_players : List (ℕ × Row)) :
    List (ℕ × Row) → List String → List Combo → List Combo
  | [], _, acc => acc
  | (i, p) :: rest, used, acc =>
    if p.player ∈ used then
      base_pairs valid salary_freed max_options target_bye_round all_players rest used acc
    else
      match find_second_base p i valid salary_freed used target_bye_round all_players none with
      | some jq =>
        if max_options ≤
            (acc ++ [create_combination [p, jq.2] (p.price + jq.2.price) salary_freed]).length then
          acc ++ [create_combination [p, jq.2] (p.price + jq.2.price) salary_freed]
        else base_pairs valid salary_freed max_options target_bye_round all_players rest
          (jq.2.player :: p.player :: used)
          (acc ++ [create_combination [p, jq.2] (p.price + jq.2.price) salary_freed])
      | none =>
        if max_options ≤ acc.length then acc
        else base_pairs valid salary_freed max_options target_bye_round all_players rest used acc

/-- The inner scan of the value branch: among valid affordable second players
keep the one with the strictly highest combined `Diff` (first such wins);
`best_total_diff` starts at `-1` exactly as in the source (the value is
irrelevant while `best` is `none`). -/
def find_second_value (first : Row) (i : ℕ) (valid : List Row → Bool)
    (salary_freed : ℤ) (used : List String) :
    List (ℕ × Row) → Option Row → ℤ → Option Row
  | [], best, _ => best
  | (j, q) :: rest, best, best_total_diff =>
    if j = i ∨ q.player ∈ used then
      find_second_value first i valid salary_freed used rest best best_total_diff
    else if valid [first, q] = false then
      find_second_value first i valid salary_freed used rest best best_total_diff
    else if first.price + q.price ≤ salary_freed then
      if best = none ∨ best_total_diff < first.diff + q.diff then
        find_second_value first i valid salary_freed used rest (some q) (first.diff + q.diff)
      else find_second_value first i valid salary_freed used rest best best_total_diff
    else find_second_value first i valid salary_freed used rest best best_total_diff

/-- The value (`maximize_value`) outer loop over enumerated first players. -/
def value_pairs (valid : List Row → Bool) (salary_freed : ℤ) (max_options : ℕ)
    (all_players : List (ℕ × Row)) :
    List (ℕ × Row) → List String → List Combo → List Combo
  | [], _, acc => acc
  | (i, p) :: rest, used, acc =>
    if p.player ∈ used then
      value_pairs valid salary_freed max_options all_players rest used acc
    else
      match find_second_value p i valid salary_freed used all_players none (-1) with
      | some q =>
        if max_options ≤
            (acc ++ [create_combination [p, q] (p.price + q.price) salary_freed]).length then
          acc ++ [create_combination [p, q] (p.price + q.price) salary_freed]
        else value_pairs valid salary_freed max_options all_players rest
          (q.player :: p.player :: used)
          (acc ++ [create_combination [p, q] (p.price + q.price) salary_freed])
      | none =>
        if max_options ≤ acc.length then acc
        else value_pairs valid salary_freed max_options all_players rest used acc

/-- The inner scan of the hybrid branch: second players are compared by name
(not index) against the first player; normal mode takes the first valid
affordable candidate, `target_bye_round` mode prefers the candidate whose
first occurrence in the candidate list is earliest (`list.index`). -/
def hybrid_second (first : Row) (valid : List Row → Bool) (salary_freed : ℤ)
    (used : List String) (target_bye_round : Bool) (candidates : List Row) :
    List Row → Option Row → Option Row
  | [], best => best
  | q :: rest, best =>
    if q.player = first.player ∨ q.player ∈ used then
      hybrid_second first valid salary_freed used target_bye_round candidates rest best
    else if valid [first, q] = false then
      hybrid_second first valid salary_freed used target_bye_round candidates rest best
    else if first.price + q.price ≤ salary_freed then
      match best with
      | none =>
        if target_bye_round then
          hybrid_second first valid salary_freed used target_bye_round candidates rest (some q)
        else some q
      | some b =>
        if target_bye_round then
          hybrid_second first valid salary_freed used target_bye_round candidates rest
            (if target_bye_round ∧ candidates.indexOf q < candidates.indexOf b
              then some q else some b)
        else some b
    else hybrid_second first valid salary_freed used target_bye_round candidates rest best

/-- The hybrid outer loop: first players already priority-sorted; a first
player over budget is skipped; the loop breaks on reaching `max_options` only
after an iteration that found a match. -/
def hybrid_pairs (valid : List Row → Bool) (salary_freed : ℤ) (max_options : ℕ)
    (target_bye_round : Bool) (all_players : List Row) :
    List Row → List String → List Combo → List Combo
  | [], _, acc => acc
  | p :: rest, used, acc =>
    if p.player ∈ used ∨ salary_freed < p.price then
      hybrid_pairs valid salary_freed max_options target_bye_round all_players rest used acc
    else
      match hybrid_second p valid salary_freed used target_bye_round all_players
          all_players none with
      | some q =>
        if max_options ≤
            (acc ++ [create_combination [p, q] (p.price + q.price) salary_freed]).length then
          acc ++ [create_combination [p, q] (p.price + q.price) salary_freed]
        else hybrid_pairs valid salary_freed max_options target_bye_round all_players rest
          (q.player :: p.player :: used)
          (acc ++ [create_combination [p, q] (p.price + q.price) salary_freed])
      | none =>
        hybrid_pairs valid salary_freed max_options target_bye_round all_players rest used acc

/-- The strategy pre-sort of `generate_trade_options`.  Python's `list.sort`
is a stable sort, modelled by `List.insertionSort` (also stable); under
`target_bye_round` the incoming bye-weighted order is kept.  The hybrid
strategy drops players without a priority and sorts the rest by their
priority key. -/
def strategy_sorted (available_players : List Row)
    (maximize_base hybrid_approach target_bye_round : Bool) : List Row :=
  if target_bye_round then available_players
  else if maximize_base then
    List.insertionSort (fun a b => b.projection ≤ a.projection) available_players
  else if hybrid_approach then
    List.insertionSort (fun a b => row_priority_le a b = true)
      (available_players.filter (fun p => (row_priority p).isSome))
  else
    List.insertionSort (fun a b => b.diff ≤ a.diff) available_players

/-- The search phase of `generate_trade_options`: the single-player loop for
`num_players_needed == 1`, otherwise the pair loop of the selected
strategy. -/
def collect_combos (valid : List Row → Bool) (salary_freed : ℤ) (max_options : ℕ)
    (maximize_base hybrid_approach : Bool) (num_players_needed : ℕ)
    (target_bye_round : Bool) (players : List Row) : List Combo :=
  if num_players_needed = 1 then
    single_trades valid salary_freed max_options players [] []
  else if maximize_base then
    base_pairs valid salary_freed max_options target_bye_round (enumerate_from 0 players)
      (enumerate_from 0 players) [] []
  else if hybrid_approach then
    hybrid_pairs valid salary_freed max_options target_bye_round players players [] []
  else
    value_pairs valid salary_freed max_options (enumerate_from 0 players)
      (enumerate_from 0 players) [] []

/-- The final re-sort of the collected combinations: by aggregate projection
or aggregate value depending on the strategy; hybrid keeps generation
order. -/
def final_sort (maximize_base hybrid_approach : Bool) (combos : List Combo) : List Combo :=
  if maximize_base then
    List.insertionSort (fun a b => b.total_projection ≤ a.total_projection) combos
  else if hybrid_approach then combos
  else List.insertionSort (fun a b => b.total_diff ≤ a.total_diff) combos

/-- `generate_trade_options`: strategy pre-sort, combination search, final
re-sort, truncation to `max_options`. -/
def generate_trade_options (available_players : List Row) (salary_freed : ℤ)
    (maximize_base hybrid_approach : Bool) (max_options : ℕ)
    (traded_out_positions : Option TOFormat) (num_players_needed : ℕ)
    (target_bye_round : Bool) : List Combo :=
  (final_sort maximize_base hybrid_approach
    (collect_combos
      (fun combo => is_valid_trade_combo (position_mapping available_players)
        traded_out_positions combo)
      salary_freed max_options maximize_base hybrid_approach num_players_needed
      target_bye_round
      (strategy_sorted available_players maximize_base hybrid_approach
        target_bye_round))).take max_options

/-! ## Claim C2: the per-player position check is the specified greedy
assignment -/

/-- The greedy assignment exactly as the specification words it: iterate the
trade-in players in combination order, assign each player to the first
still-unsatisfied requirement group whose positions intersect that player's
positions (each player satisfies at most one group, by construction of the
iteration), and return the groups left unsatisfied. -/
def spec_greedy_leftover (posOf : String → List String) :
    List Row → List (List String) → List (List String)
  | [], reqs => reqs
  | p :: rest, reqs =>
    match remove_first (fun req => req.any (fun pos => decide (pos ∈ posOf p.player))) reqs with
    | some reqs2 => spec_greedy_leftover posOf rest reqs2
    | none => spec_greedy_leftover posOf rest reqs

/-- The specification's acceptance condition: the greedy assignment ends with
every (non-empty) group satisfied. -/
def spec_greedy_satisfied (posOf : String → List String) (combo : List Row)
    (groups : List (List String)) : Bool :=
  (spec_greedy_leftover posOf combo groups).isEmpty

theorem greedy_assign_eq_spec (posOf : String → List String) :
    ∀ (combo : List Row) (reqs : List (List String)) (used : List String),
      (∀ p ∈ combo, p.player ∉ used) → (combo.map Row.player).Nodup →
      greedy_assign posOf combo reqs used = spec_greedy_leftover posOf combo reqs := by
  intro combo
  induction combo with
  | nil => intro reqs used _ _; rfl
  | cons p rest ih =>
    intro reqs used hused hnodup
    have hp : p.player ∉ used := hused p (List.mem_cons_self p rest)
    simp only [List.map_cons, List.nodup_cons] at hnodup
    simp only [greedy_assign, spec_greedy_leftover, if_neg hp]
    cases hrm : remove_first
        (fun req => req.any (fun pos => decide (pos ∈ posOf p.player))) reqs with
    | some reqs2 =>
      refine ih reqs2 (p.player :: used) ?_ hnodup.2
      intro q hq
      simp only [List.mem_cons]
      rintro (hqp | hqu)
      · exact hnodup.1 (hqp ▸ List.mem_map_of_mem Row.player hq)
      · exact hused q (List.mem_cons_of_mem p hq) hqu
    | none =>
      exact ih reqs used (fun q hq => hused q (List.mem_cons_of_mem p hq)) hnodup.2

theorem spec_greedy_leftover_nil (posOf : String → List String) :
    ∀ combo : List Row, spec_greedy_leftover posOf combo [] = [] := by
  intro combo
  induction combo with
  | nil => rfl
  | cons p rest ih => simp only [spec_greedy_leftover, remove_first, ih]

/-- Claim C2: in per-player (dict-list) requirements mode, on a combination
of distinct players, the position check accepts if and only if every trade-in
player can play one of the six canonical codes and the greedy assignment over
the non-empty requirement groups ends with every group satisfied (groups with
an empty required-positions list impose no constraint). -/
theorem per_player_check_iff_greedy :
    ∀ (posOf : String → List String) (groups : List (List String)) (combo : List Row),
      groups ≠ [] → (combo.map Row.player).Nodup →
      (is_valid_trade_combo posOf (some (TOFormat.dicts groups)) combo = true ↔
        ((∀ p ∈ combo, has_valid_position posOf p all_positions = true) ∧
          spec_greedy_satisfied posOf combo (groups.filter (fun g => !g.isEmpty)) = true)) := by
  intro posOf groups combo hne hnodup
  have hge : groups.isEmpty = false := by
    cases groups with
    | nil => exact absurd rfl hne
    | cons g gs => rfl
  cases hval : combo.all (fun p => has_valid_position posOf p all_positions) with
  | false =>
    obtain ⟨p, hp, hpv⟩ := List.all_eq_false.mp hval
    simp only [is_valid_trade_combo, hge, hval, Bool.not_false, if_true, if_false,
      Bool.false_eq_true, false_iff, not_and]
    intro hall
    exact absurd (hall p hp) (by simpa using hpv)
  | true =>
    have hall : ∀ p ∈ combo, has_valid_position posOf p all_positions = true :=
      List.all_eq_true.mp hval
    cases hemp : (groups.filter (fun g => !g.isEmpty)).isEmpty with
    | true =>
      have : groups.filter (fun g => !g.isEmpty) = [] := List.isEmpty_iff.mp hemp
      simp only [is_valid_trade_combo, hge, hval, hemp, Bool.not_true, if_false,
        spec_greedy_satisfied, this, spec_greedy_leftover_nil]
      simp [hall]
      exact hall
    | false =>
      have heq := greedy_assign_eq_spec posOf combo
        (groups.filter (fun g => !g.isEmpty)) [] (by simp) hnodup
      simp only [is_valid_trade_combo, hge, hval, hemp, Bool.not_true, if_false,
        spec_greedy_satisfied, heq]
      simp [hall]
      exact fun _ => hall

/-- Witness for C2 at a concrete instance: a HOK-only and a MID-only player
satisfy the two groups `[HOK]`, `[MID]`. -/
theorem per_player_check_iff_greedy_witness :
    is_valid_trade_combo
        (fun n => if n = "A" then ["HOK"] else ["MID"])
        (some (TOFormat.dicts [["HOK"], ["MID"]]))
        [⟨"A", "MEL", "HOK", none, 1, 1, 1, none⟩,
         ⟨"B", "BRI", "MID", none, 1, 1, 1, none⟩] = true ↔
      ((∀ p ∈ [(⟨"A", "MEL", "HOK", none, 1, 1, 1, none⟩ : Row),
               ⟨"B", "BRI", "MID", none, 1, 1, 1, none⟩],
          has_valid_position (fun n => if n = "A" then ["HOK"] else ["MID"])
            p all_positions = true) ∧
        spec_greedy_satisfied (fun n => if n = "A" then ["HOK"] else ["MID"])
          [⟨"A", "MEL", "HOK", none, 1, 1, 1, none⟩,
           ⟨"B", "BRI", "MID", none, 1, 1, 1, none⟩]
          ([["HOK"], ["MID"]].filter (fun g => !g.isEmpty)) = true) :=
  per_player_check_iff_greedy
    (fun n => if n = "A" then ["HOK"] else ["MID"])
    [["HOK"], ["MID"]]
    [⟨"A", "MEL", "HOK", none, 1, 1, 1, none⟩,
     ⟨"B", "BRI", "MID", none, 1, 1, 1, none⟩]
    (by decide) (by decide)

/-! ## Invariants of the combination search (claims C1, C5, C10) -/

def combo_names (c : Combo) : List String := c.players.map PlayerDict.name

/-- No player name shared between two combinations. -/
def names_disjoint (c d : Combo) : Prop :=
  ∀ n, n ∈ combo_names c → n ∉ combo_names d

theorem names_disjoint_symm : ∀ {c d : Combo}, names_disjoint c d → names_disjoint d c :=
  fun h n hnd hnc => h n hnc hnd

/-- Every combination the search accepts is `create_combination` applied to a
non-empty list of pool rows whose total price is within the budget, with the
total price passed in being exactly that sum. -/
def combo_from (pool : List Row) (salary : ℤ) (c : Combo) : Prop :=
  ∃ rs : List Row, rs ≠ [] ∧ (∀ r ∈ rs, r ∈ pool) ∧
    (rs.map Row.price).sum ≤ salary ∧
    c = create_combination rs ((rs.map Row.price).sum) salary

def result_ok (pool : List Row) (salary : ℤ) (res : List Combo) : Prop :=
  (∀ c ∈ res, combo_from pool salary c) ∧ res.Pairwise names_disjoint

/-- Loop invariant: every accepted combination is well-formed and all its
player names are recorded in `used`; accepted combinations are pairwise
name-disjoint. -/
def combos_ok (pool : List Row) (salary : ℤ) (used : List String)
    (acc : List Combo) : Prop :=
  (∀ c ∈ acc, combo_from pool salary c ∧ ∀ n ∈ combo_names c, n ∈ used) ∧
  acc.Pairwise names_disjoint

theorem combos_ok_result {pool salary used acc} (h : combos_ok pool salary used acc) :
    result_ok pool salary acc :=
  ⟨fun c hc => (h.1 c hc).1, h.2⟩

theorem combos_ok_nil (pool : List Row) (salary : ℤ) (used : List String) :
    combos_ok pool salary used [] :=
  ⟨fun c hc => absurd hc (List.not_mem_nil c), List.Pairwise.nil⟩

theorem combos_ok_snoc {pool salary used acc} {c : Combo} {used2 : List String}
    (h : combos_ok pool salary used acc)
    (hc : combo_from pool salary c)
    (hfresh : ∀ n ∈ combo_names c, n ∉ used)
    (hnew : ∀ n ∈ combo_names c, n ∈ used2)
    (hold : ∀ n ∈ used, n ∈ used2) :
    combos_ok pool salary used2 (acc ++ [c]) := by
  constructor
  · intro d hd
    rcases List.mem_append.mp hd with hd | hd
    · exact ⟨(h.1 d hd).1, fun n hn => hold n ((h.1 d hd).2 n hn)⟩
    · rw [List.mem_singleton.mp hd]
      exact ⟨hc, hnew⟩
  · rw [List.pairwise_append]
    refine ⟨h.2, List.pairwise_singleton _ _, ?_⟩
    intro a ha b hb n hna
    rw [List.mem_singleton.mp hb]
    intro hnc
    exact hfresh n hnc ((h.1 a ha).2 n hna)

theorem bool_ne_false {b : Bool} (h : ¬b = false) : b = true := by
  cases b
  · exact absurd rfl h
  · rfl

theorem combo_names_single (p : Row) (tp s : ℤ) :
    combo_names (create_combination [p] tp s) = [p.player] := rfl

theorem combo_names_pair (p q : Row) (tp s : ℤ) :
    combo_names (create_combination [p, q] tp s) = [p.player, q.player] := rfl

theorem combo_from_single {pool : List Row} {salary : ℤ} {p : Row}
    (hp : p ∈ pool) (hle : p.price ≤ salary) :
    combo_from pool salary (create_combination [p] p.price salary) := by
  refine ⟨[p], by simp, by simpa using hp, by simpa using hle, ?_⟩
  simp [create_combination]

theorem combo_from_pair {pool : List Row} {salary : ℤ} {p q : Row}
    (hp : p ∈ pool) (hq : q ∈ pool) (hle : p.price + q.price ≤ salary) :
    combo_from pool salary (create_combination [p, q] (p.price + q.price) salary) := by
  refine ⟨[p, q], by simp, ?_, ?_, ?_⟩
  · intro r hr
    rcases List.mem_cons.mp hr with h | h
    · exact h ▸ hp
    · exact (List.mem_singleton.mp h) ▸ hq
  · simpa using hle
  · simp [create_combination]

theorem enumerate_from_mem :
    ∀ (l : List Row) (i j : ℕ) (r : Row), (j, r) ∈ enumerate_from i l → r ∈ l := by
  intro l
  induction l with
  | nil => intro i j r h; exact absurd h (List.not_mem_nil _)
  | cons x xs ih =>
    intro i j r h
    rcases List.mem_cons.mp h with h | h
    · rw [show r = x from congrArg Prod.snd h]
      exact List.mem_cons_self x xs
    · exact List.mem_cons_of_mem x (ih (i + 1) j r h)

/-- What any candidate returned by the projection-branch inner scan
satisfies. -/
def good_second (pool : List Row) (first : Row) (valid : List Row → Bool)
    (salary : ℤ) (used : List String) (q : Row) : Prop :=
  q ∈ pool ∧ q.player ∉ used ∧ valid [first, q] = true ∧
    first.price + q.price ≤ salary

theorem find_second_base_spec (pool : List Row) (first : Row) (i : ℕ)
    (valid : List Row → Bool) (salary : ℤ) (used : List String) (tbr : Bool) :
    ∀ (lst : List (ℕ × Row)) (best : Option (ℕ × Row)),
      (∀ jq ∈ lst, jq.2 ∈ pool) →
      (∀ jq, best = some jq → good_second pool first valid salary used jq.2) →
      ∀ out, find_second_base first i valid salary used tbr lst best = some out →
        good_second pool first valid salary used out.2 := by
  intro lst
  induction lst with
  | nil =>
    intro best _ hbest out h
    exact hbest out h
  | cons jq rest ih =>
    intro best hlst hbest out h
    obtain ⟨j, q⟩ := jq
    have hqpool : q ∈ pool := hlst (j, q) (List.mem_cons_self _ _)
    have hrest : ∀ x ∈ rest, x.2 ∈ pool :=
      fun x hx => hlst x (List.mem_cons_of_mem _ hx)
    simp only [find_second_base] at h
    by_cases h1 : j = i ∨ q.player ∈ used
    · rw [if_pos h1] at h
      exact ih best hrest hbest out h
    · rw [if_neg h1] at h
      by_cases h2 : valid [first, q] = false
      · rw [if_pos h2] at h
        exact ih best hrest hbest out h
      · rw [if_neg h2] at h
        by_cases h3 : first.price + q.price ≤ salary
        · rw [if_pos h3] at h
          have hnused : q.player ∉ used := (not_or.mp h1).2
          have hvalid : valid [first, q] = true := bool_ne_false h2
          have hgood : good_second pool first valid salary used q :=
            ⟨hqpool, hnused, hvalid, h3⟩
          cases best with
          | none =>
            dsimp only at h
            by_cases h4 : tbr = true
            · rw [if_pos h4] at h
              refine ih (some (j, q)) hrest ?_ out h
              rintro x hx
              rw [Option.some.injEq] at hx
              exact hx ▸ hgood
            · rw [if_neg h4, Option.some.injEq] at h
              exact h ▸ hgood
          | some b =>
            dsimp only at h
            by_cases h4 : tbr = true
            · rw [if_pos h4] at h
              by_cases h5 : tbr = true ∧ j < b.1
              · rw [if_pos h5] at h
                refine ih (some (j, q)) hrest ?_ out h
                rintro x hx
                rw [Option.some.injEq] at hx
                exact hx ▸ hgood
              · rw [if_neg h5] at h
                refine ih (some b) hrest ?_ out h
                rintro x hx
                rw [Option.some.injEq] at hx
                exact hx ▸ hbest b rfl
            · rw [if_neg h4, Option.some.injEq] at h
              exact h ▸ hbest b rfl
        · rw [if_neg h3] at h
          exact ih best hrest hbest out h

theorem find_second_value_spec (pool : List Row) (first : Row) (i : ℕ)
    (valid : List Row → Bool) (salary : ℤ) (used : List String) :
    ∀ (lst : List (ℕ × Row)) (best : Option Row) (btd : ℤ),
      (∀ jq ∈ lst, jq.2 ∈ pool) →
      (∀ x, best = some x → good_second pool first valid salary used x) →
      ∀ out, find_second_value first i valid salary used lst best btd = some out →
        good_second pool first valid salary used out := by
  intro lst
  induction lst with
  | nil =>
    intro best btd _ hbest out h
    exact hbest out h
  | cons jq rest ih =>
    intro best btd hlst hbest out h
    obtain ⟨j, q⟩ := jq
    have hqpool : q ∈ pool := hlst (j, q) (List.mem_cons_self _ _)
    have hrest : ∀ x ∈ rest, x.2 ∈ pool :=
      fun x hx => hlst x (List.mem_cons_of_mem _ hx)
    simp only [find_second_value] at h
    split_ifs at h with h1 h2 h3 h4
    · exact ih best btd hrest hbest out h
    · exact ih best btd hrest hbest out h
    · have hnused : q.player ∉ used := (not_or.mp h1).2
      have hvalid : valid [first, q] = true := bool_ne_false h2
      refine ih (some q) (first.diff + q.diff) hrest ?_ out h
      rintro x hx
      rw [Option.some.injEq] at hx
      exact hx ▸ ⟨hqpool, hnused, hvalid, h3⟩
    · exact ih best btd hrest hbest out h
    · exact ih best btd hrest hbest out h

theorem hybrid_second_spec (pool : List Row) (first : Row)
    (valid : List Row → Bool) (salary : ℤ) (used : List String) (tbr : Bool)
    (candidates : List Row) :
    ∀ (lst : List Row) (best : Option Row),
      (∀ x ∈ lst, x ∈ pool) →
      (∀ x, best = some x → good_second pool first valid salary used x) →
      ∀ out, hybrid_second first valid salary used tbr candidates lst best = some out →
        good_second pool first valid salary used out := by
  intro lst
  induction lst with
  | nil =>
    intro best _ hbest out h
    exact hbest out h
  | cons q rest ih =>
    intro best hlst hbest out h
    have hqpool : q ∈ pool := hlst q (List.mem_cons_self _ _)
    have hrest : ∀ x ∈ rest, x ∈ pool :=
      fun x hx => hlst x (List.mem_cons_of_mem _ hx)
    simp only [hybrid_second] at h
    by_cases h1 : q.player = first.player ∨ q.player ∈ used
    · rw [if_pos h1] at h
      exact ih best hrest hbest out h
    · rw [if_neg h1] at h
      by_cases h2 : valid [first, q] = false
      · rw [if_pos h2] at h
        exact ih best hrest hbest out h
      · rw [if_neg h2] at h
        by_cases h3 : first.price + q.price ≤ salary
        · rw [if_pos h3] at h
          have hnused : q.player ∉ used := (not_or.mp h1).2
          have hvalid : valid [first, q] = true := bool_ne_false h2
          have hgood : good_second pool first valid salary used q :=
            ⟨hqpool, hnused, hvalid, h3⟩
          cases best with
          | none =>
            dsimp only at h
            by_cases h4 : tbr = true
            · rw [if_pos h4] at h
              refine ih (some q) hrest ?_ out h
              rintro x hx
              rw [Option.some.injEq] at hx
              exact hx ▸ hgood
            · rw [if_neg h4, Option.some.injEq] at h
              exact h ▸ hgood
          | some b =>
            dsimp only at h
            by_cases h4 : tbr = true
            · rw [if_pos h4] at h
              by_cases h5 : tbr = true ∧ candidates.indexOf q < candidates.indexOf b
              · rw [if_pos h5] at h
                refine ih (some q) hrest ?_ out h
                rintro x hx
                rw [Option.some.injEq] at hx
                exact hx ▸ hgood
              · rw [if_neg h5] at h
                refine ih (some b) hrest ?_ out h
                rintro x hx
                rw [Option.some.injEq] at hx
                exact hx ▸ hbest b rfl
            · rw [if_neg h4, Option.some.injEq] at h
              exact h ▸ hbest b rfl
        · rw [if_neg h3] at h
          exact ih best hrest hbest out h

theorem single_trades_ok (pool : List Row) (valid : List Row → Bool)
    (salary : ℤ) (maxOpt : ℕ) :
    ∀ (remaining : List Row) (used : List String) (acc : List Combo),
      (∀ r ∈ remaining, r ∈ pool) →
      combos_ok pool salary used acc →
      result_ok pool salary (single_trades valid salary maxOpt remaining used acc) := by
  intro remaining
  induction remaining with
  | nil => intro used acc _ hok; exact combos_ok_result hok
  | cons p rest ih =>
    intro used acc hsub hok
    have hpm : p ∈ pool := hsub p (List.mem_cons_self _ _)
    have hrest : ∀ r ∈ rest, r ∈ pool := fun r hr => hsub r (List.mem_cons_of_mem _ hr)
    simp only [single_trades]
    by_cases h1 : p.player ∈ used
    · rw [if_pos h1]
      exact ih used acc hrest hok
    · rw [if_neg h1]
      by_cases h2 : p.price ≤ salary ∧ valid [p] = true
      · rw [if_pos h2]
        have hsnoc : combos_ok pool salary (p.player :: used)
            (acc ++ [create_combination [p] p.price salary]) := by
          refine combos_ok_snoc hok (combo_from_single hpm h2.1) ?_ ?_
            (fun n hn => List.mem_cons_of_mem _ hn)
          · rw [combo_names_single]
            intro n hn
            rw [List.mem_singleton.mp hn]
            exact h1
          · rw [combo_names_single]
            intro n hn
            rw [List.mem_singleton.mp hn]
            exact List.mem_cons_self _ _
        by_cases h3 : maxOpt ≤ (acc ++ [create_combination [p] p.price salary]).length
        · rw [if_pos h3]
          exact combos_ok_result hsnoc
        · rw [if_neg h3]
          exact ih _ _ hrest hsnoc
      · rw [if_neg h2]
        exact ih used acc hrest hok

theorem base_pairs_ok (pool : List Row) (valid : List Row → Bool)
    (salary : ℤ) (maxOpt : ℕ) (tbr : Bool) (allp : List (ℕ × Row))
    (hallp : ∀ jq ∈ allp, jq.2 ∈ pool) :
    ∀ (remaining : List (ℕ × Row)) (used : List String) (acc : List Combo),
      (∀ jq ∈ remaining, jq.2 ∈ pool) →
      combos_ok pool salary used acc →
      result_ok pool salary (base_pairs valid salary maxOpt tbr allp remaining used acc) := by
  intro remaining
  induction remaining with
  | nil => intro used acc _ hok; exact combos_ok_result hok
  | cons ip rest ih =>
    intro used acc hsub hok
    obtain ⟨i, p⟩ := ip
    have hpm : p ∈ pool := hsub (i, p) (List.mem_cons_self _ _)
    have hrest : ∀ jq ∈ rest, jq.2 ∈ pool :=
      fun jq hq => hsub jq (List.mem_cons_of_mem _ hq)
    simp only [base_pairs]
    by_cases h1 : p.player ∈ used
    · rw [if_pos h1]
      exact ih used acc hrest hok
    · rw [if_neg h1]
      cases hf : find_second_base p i valid salary used tbr allp none with
      | none =>
        simp only [hf]
        by_cases h3 : maxOpt ≤ acc.length
        · rw [if_pos h3]
          exact combos_ok_result hok
        · rw [if_neg h3]
          exact ih used acc hrest hok
      | some jq =>
        obtain ⟨hqpool, hqnused, hqvalid, hqprice⟩ :=
          find_second_base_spec pool p i valid salary used tbr allp none hallp
            (fun x hx => Option.noConfusion hx) jq hf
        simp only [hf]
        have hsnoc : combos_ok pool salary (jq.2.player :: p.player :: used)
            (acc ++ [create_combination [p, jq.2] (p.price + jq.2.price) salary]) := by
          refine combos_ok_snoc hok (combo_from_pair hpm hqpool hqprice) ?_ ?_
            (fun n hn => List.mem_cons_of_mem _ (List.mem_cons_of_mem _ hn))
          · rw [combo_names_pair]
            intro n hn
            rcases List.mem_cons.mp hn with hn | hn
            · exact hn ▸ h1
            · exact (List.mem_singleton.mp hn) ▸ hqnused
          · rw [combo_names_pair]
            intro n hn
            rcases List.mem_cons.mp hn with hn | hn
            · exact hn ▸ List.mem_cons_of_mem _ (List.mem_cons_self _ _)
            · exact (List.mem_singleton.mp hn) ▸ List.mem_cons_self _ _
        by_cases h3 : maxOpt ≤
            (acc ++ [create_combination [p, jq.2] (p.price + jq.2.price) salary]).length
        · rw [if_pos h3]
          exact combos_ok_result hsnoc
        · rw [if_neg h3]
          exact ih _ _ hrest hsnoc

theorem value_pairs_ok (pool : List Row) (valid : List Row → Bool)
    (salary : ℤ) (maxOpt : ℕ) (allp : List (ℕ × Row))
    (hallp : ∀ jq ∈ allp, jq.2 ∈ pool) :
    ∀ (remaining : List (ℕ × Row)) (used : List String) (acc : List Combo),
      (∀ jq ∈ remaining, jq.2 ∈ pool) →
      combos_ok pool salary used acc →
      result_ok pool salary (value_pairs valid salary maxOpt allp remaining used acc) := by
  intro remaining
  induction remaining with
  | nil => intro used acc _ hok; exact combos_ok_result hok
  | cons ip rest ih =>
    intro used acc hsub hok
    obtain ⟨i, p⟩ := ip
    have hpm : p ∈ pool := hsub (i, p) (List.mem_cons_self _ _)
    have hrest : ∀ jq ∈ rest, jq.2 ∈ pool :=
      fun jq hq => hsub jq (List.mem_cons_of_mem _ hq)
    simp only [value_pairs]
    by_cases h1 : p.player ∈ used
    · rw [if_pos h1]
      exact ih used acc hrest hok
    · rw [if_neg h1]
      cases hf : find_second_value p i valid salary used allp none (-1) with
      | none =>
        simp only [hf]
        by_cases h3 : maxOpt ≤ acc.length
        · rw [if_pos h3]
          exact combos_ok_result hok
        · rw [if_neg h3]
          exact ih used acc hrest hok
      | some q =>
        obtain ⟨hqpool, hqnused, hqvalid, hqprice⟩ :=
          find_second_value_spec pool p i valid salary used allp none (-1) hallp
            (fun x hx => Option.noConfusion hx) q hf
        simp only [hf]
        have hsnoc : combos_ok pool salary (q.player :: p.player :: used)
            (acc ++ [create_combination [p, q] (p.price + q.price) salary]) := by
          refine combos_ok_snoc hok (combo_from_pair hpm hqpool hqprice) ?_ ?_
            (fun n hn => List.mem_cons_of_mem _ (List.mem_cons_of_mem _ hn))
          · rw [combo_names_pair]
            intro n hn
            rcases List.mem_cons.mp hn with hn | hn
            · exact hn ▸ h1
            · exact (List.mem_singleton.mp hn) ▸ hqnused
          · rw [combo_names_pair]
            intro n hn
            rcases List.mem_cons.mp hn with hn | hn
            · exact hn ▸ List.mem_cons_of_mem _ (List.mem_cons_self _ _)
            · exact (List.mem_singleton.mp hn) ▸ List.mem_cons_self _ _
        by_cases h3 : maxOpt ≤
            (acc ++ [create_combination [p, q] (p.price + q.price) salary]).length
        · rw [if_pos h3]
          exact combos_ok_result hsnoc
        · rw [if_neg h3]
          exact ih _ _ hrest hsnoc

theorem hybrid_pairs_ok (pool : List Row) (valid : List Row → Bool)
    (salary : ℤ) (maxOpt : ℕ) (tbr : Bool) (allp : List Row)
    (hallp : ∀ x ∈ allp, x ∈ pool) :
    ∀ (remaining : List Row) (used : List String) (acc : List Combo),
      (∀ r ∈ remaining, r ∈ pool) →
      combos_ok pool salary used acc →
      result_ok pool salary (hybrid_pairs valid salary maxOpt tbr allp remaining used acc) := by
  intro remaining
  induction remaining with
  | nil => intro used acc _ hok; exact combos_ok_result hok
  | cons p rest ih =>
    intro used acc hsub hok
    have hpm : p ∈ pool := hsub p (List.mem_cons_self _ _)
    have hrest : ∀ r ∈ rest, r ∈ pool := fun r hr => hsub r (List.mem_cons_of_mem _ hr)
    simp only [hybrid_pairs]
    by_cases h1 : p.player ∈ used ∨ salary < p.price
    · rw [if_pos h1]
      exact ih used acc hrest hok
    · rw [if_neg h1]
      have h1p : p.player ∉ used := (not_or.mp h1).1
      cases hf : hybrid_second p valid salary used tbr allp allp none with
      | none =>
        simp only [hf]
        exact ih used acc hrest hok
      | some q =>
        obtain ⟨hqpool, hqnused, hqvalid, hqprice⟩ :=
          hybrid_second_spec pool p valid salary used tbr allp allp none hallp
            (fun x hx => Option.noConfusion hx) q hf
        simp only [hf]
        have hsnoc : combos_ok pool salary (q.player :: p.player :: used)
            (acc ++ [create_combination [p, q] (p.price + q.price) salary]) := by
          refine combos_ok_snoc hok (combo_from_pair hpm hqpool hqprice) ?_ ?_
            (fun n hn => List.mem_cons_of_mem _ (List.mem_cons_of_mem _ hn))
          · rw [combo_names_pair]
            intro n hn
            rcases List.mem_cons.mp hn with hn | hn
            · exact hn ▸ h1p
            · exact (List.mem_singleton.mp hn) ▸ hqnused
          · rw [combo_names_pair]
            intro n hn
            rcases List.mem_cons.mp hn with hn | hn
            · exact hn ▸ List.mem_cons_of_mem _ (List.mem_cons_self _ _)
            · exact (List.mem_singleton.mp hn) ▸ List.mem_cons_self _ _
        by_cases h3 : maxOpt ≤
            (acc ++ [create_combination [p, q] (p.price + q.price) salary]).length
        · rw [if_pos h3]
          exact combos_ok_result hsnoc
        · rw [if_neg h3]
          exact ih _ _ hrest hsnoc

theorem result_ok_of_perm {pool : List Row} {salary : ℤ} {res res2 : List Combo}
    (hperm : res.Perm res2) (h : result_ok pool salary res) :
    result_ok pool salary res2 := by
  constructor
  · intro c hc
    exact h.1 c (hperm.mem_iff.mpr hc)
  · exact (hperm.pairwise_iff fun hab => names_disjoint_symm hab).1 h.2

theorem result_ok_take {pool : List Row} {salary : ℤ} (k : ℕ) {res : List Combo}
    (h : result_ok pool salary res) : result_ok pool salary (res.take k) :=
  ⟨fun c hc => h.1 c (List.take_subset k res hc), h.2.sublist (List.take_sublist k res)⟩

theorem strategy_sorted_subset (available : List Row) (mb hy tbr : Bool) :
    ∀ r ∈ strategy_sorted available mb hy tbr, r ∈ available := by
  intro r hr
  unfold strategy_sorted at hr
  split_ifs at hr
  · exact hr
  · exact (List.mem_insertionSort _).1 hr
  · exact List.mem_of_mem_filter ((List.mem_insertionSort _).1 hr)
  · exact (List.mem_insertionSort _).1 hr

theorem collect_combos_ok (pool : List Row) (valid : List Row → Bool)
    (salary : ℤ) (maxOpt : ℕ) (mb hy : Bool) (slots : ℕ) (tbr : Bool)
    (players : List Row) (hsub : ∀ r ∈ players, r ∈ pool) :
    result_ok pool salary
      (collect_combos valid salary maxOpt mb hy slots tbr players) := by
  have henum : ∀ jq ∈ enumerate_from 0 players, jq.2 ∈ pool := by
    rintro ⟨j, r⟩ hjr
    exact hsub r (enumerate_from_mem players 0 j r hjr)
  unfold collect_combos
  split_ifs
  · exact single_trades_ok pool valid salary maxOpt players [] []
      hsub (combos_ok_nil pool salary [])
  · exact base_pairs_ok pool valid salary maxOpt tbr (enumerate_from 0 players) henum
      (enumerate_from 0 players) [] [] henum (combos_ok_nil pool salary [])
  · exact hybrid_pairs_ok pool valid salary maxOpt tbr players hsub
      players [] [] hsub (combos_ok_nil pool salary [])
  · exact value_pairs_ok pool valid salary maxOpt (enumerate_from 0 players) henum
      (enumerate_from 0 players) [] [] henum (combos_ok_nil pool salary [])

theorem final_sort_ok {pool : List Row} {salary : ℤ} (mb hy : Bool)
    {combos : List Combo} (h : result_ok pool salary combos) :
    result_ok pool salary (final_sort mb hy combos) := by
  unfold final_sort
  split_ifs
  · exact result_ok_of_perm (List.perm_insertionSort _ _).symm h
  · exact h
  · exact result_ok_of_perm (List.perm_insertionSort _ _).symm h

/-- Every combination returned by `generate_trade_options` is built by
`create_combination` from pool rows within budget, and the returned
combinations are pairwise name-disjoint. -/
theorem generate_trade_options_ok (available : List Row) (salary : ℤ)
    (mb hy : Bool) (maxOpt : ℕ) (topt : Option TOFormat) (slots : ℕ) (tbr : Bool) :
    result_ok available salary
      (generate_trade_options available salary mb hy maxOpt topt slots tbr) := by
  unfold generate_trade_options
  exact result_ok_take maxOpt (final_sort_ok mb hy
    (collect_combos_ok available _ salary maxOpt mb hy slots tbr _
      (strategy_sorted_subset available mb hy tbr)))

/-- Claim C1: every result list of `generate_trade_options` (any strategy,
any `num_players_needed`) contains only combinations whose aggregate price is
within the budget (`salary_freed`), and no player name appears in two
different combinations of the same result list. -/
theorem trade_options_within_budget_and_no_reuse :
    ∀ (available : List Row) (salary : ℤ) (mb hy : Bool) (maxOpt : ℕ)
      (topt : Option TOFormat) (slots : ℕ) (tbr : Bool),
      (∀ c ∈ generate_trade_options available salary mb hy maxOpt topt slots tbr,
        c.total_price ≤ salary) ∧
      (generate_trade_options available salary mb hy maxOpt topt slots tbr).Pairwise
        names_disjoint := by
  intro available salary mb hy maxOpt topt slots tbr
  have h := generate_trade_options_ok available salary mb hy maxOpt topt slots tbr
  refine ⟨?_, h.2⟩
  intro c hc
  obtain ⟨rs, -, -, hsum, hceq⟩ := h.1 c hc
  rw [hceq]
  exact hsum

def witness_row : Row := ⟨"Alpha", "MEL", "MID", none, 100, 500, 1000, none⟩

/-- Witness for C1 at a concrete run: the one returned singleton is within
the budget of 200. -/
theorem trade_options_within_budget_witness :
    (create_combination [witness_row] 100 200).total_price ≤ 200 :=
  (trade_options_within_budget_and_no_reuse [witness_row] 200 false false 10
      none 1 false).1
    (create_combination [witness_row] 100 200) (by decide)

theorem map_dict_price (rs : List Row) :
    (rs.map create_player_dict).map PlayerDict.price = rs.map Row.price := by
  rw [List.map_map]
  rfl

theorem map_dict_diff (rs : List Row) :
    (rs.map create_player_dict).map PlayerDict.diff = rs.map Row.diff := by
  rw [List.map_map]
  rfl

theorem map_dict_projection (rs : List Row) :
    (rs.map create_player_dict).map PlayerDict.projection = rs.map Row.projection := by
  rw [List.map_map]
  rfl

/-- Claim C10: every combination returned by `generate_trade_options`
satisfies the arithmetic identities of `create_combination`: `total_price`,
`total_diff` and `total_projection` are the sums over its players, and
`salary_remaining` is the budget minus `total_price`, hence non-negative. -/
theorem trade_options_arithmetic :
    ∀ (available : List Row) (salary : ℤ) (mb hy : Bool) (maxOpt : ℕ)
      (topt : Option TOFormat) (slots : ℕ) (tbr : Bool) (c : Combo),
      c ∈ generate_trade_options available salary mb hy maxOpt topt slots tbr →
      c.total_price = (c.players.map PlayerDict.price).sum ∧
      c.total_diff = (c.players.map PlayerDict.diff).sum ∧
      c.total_projection = (c.players.map PlayerDict.projection).sum ∧
      c.salary_remaining = salary - c.total_price ∧
      0 ≤ c.salary_remaining := by
  intro available salary mb hy maxOpt topt slots tbr c hc
  have h := generate_trade_options_ok available salary mb hy maxOpt topt slots tbr
  obtain ⟨rs, -, -, hsum, hceq⟩ := h.1 c hc
  subst hceq
  refine ⟨?_, ?_, ?_, rfl, ?_⟩
  · show (rs.map Row.price).sum = ((rs.map create_player_dict).map PlayerDict.price).sum
    rw [map_dict_price]
  · show (rs.map Row.diff).sum = ((rs.map create_player_dict).map PlayerDict.diff).sum
    rw [map_dict_diff]
  · show (rs.map Row.projection).sum =
      ((rs.map create_player_dict).map PlayerDict.projection).sum
    rw [map_dict_projection]
  · show 0 ≤ salary - (rs.map Row.price).sum
    omega

/-- Witness for C10 at a concrete run. -/
theorem trade_options_arithmetic_witness :
    (create_combination [witness_row] 100 200).total_price =
      ((create_combination [witness_row] 100 200).players.map PlayerDict.price).sum ∧
    (create_combination [witness_row] 100 200).total_diff =
      ((create_combination [witness_row] 100 200).players.map PlayerDict.diff).sum ∧
    (create_combination [witness_row] 100 200).total_projection =
      ((create_combination [witness_row] 100 200).players.map PlayerDict.projection).sum ∧
    (create_combination [witness_row] 100 200).salary_remaining =
      200 - (create_combination [witness_row] 100 200).total_price ∧
    0 ≤ (create_combination [witness_row] 100 200).salary_remaining :=
  trade_options_arithmetic [witness_row] 200 false false 10 none 1 false
    (create_combination [witness_row] 100 200) (by decide)

theorem sum_zero_each :
    ∀ l : List ℤ, (∀ x ∈ l, 0 ≤ x) → l.sum ≤ 0 → ∀ x ∈ l, x = 0 := by
  intro l
  induction l with
  | nil => intro _ _ x hx; exact absurd hx (List.not_mem_nil x)
  | cons a rest ih =>
    intro hpos hsum x hx
    have ha : 0 ≤ a := hpos a (List.mem_cons_self _ _)
    have hrest : 0 ≤ rest.sum :=
      List.sum_nonneg fun y hy => hpos y (List.mem_cons_of_mem _ hy)
    rw [List.sum_cons] at hsum
    rcases List.mem_cons.mp hx with rfl | hx
    · linarith
    · exact ih (fun y hy => hpos y (List.mem_cons_of_mem _ hy)) (by linarith) x hx

def zero_row_a : Row := ⟨"ZeroA", "MEL", "MID", none, 0, 0, 100, none⟩

def zero_row_b : Row := ⟨"ZeroB", "BRI", "HOK", none, 0, 0, 100, none⟩

/-- Counterexample to claim C5 as stated: with a budget of exactly zero and
two zero-priced candidates, the value-strategy search with
`num_players_needed = 2` does return a paired combination. -/
theorem zero_budget_pair_counterexample :
    (generate_trade_options [zero_row_a, zero_row_b] 0 false false 10 none 2 false).map
      (fun c => c.players.length) = [2] := by decide

/-- Claim C5 (amended): over a candidate pool of non-negatively priced
players, a strictly negative budget yields no combinations at all (for every
strategy and every `num_players_needed`); a budget of exactly zero only
admits combinations made entirely of zero-priced players (so a pair of
zero-priced players may still be returned, and a singleton may still be
returned when its price is zero). -/
theorem nonpositive_budget_options :
    ∀ (available : List Row) (salary : ℤ) (mb hy : Bool) (maxOpt : ℕ)
      (topt : Option TOFormat) (slots : ℕ) (tbr : Bool),
      (∀ r ∈ available, 0 ≤ r.price) →
      (salary < 0 →
        generate_trade_options available salary mb hy maxOpt topt slots tbr = []) ∧
      (salary = 0 →
        ∀ c ∈ generate_trade_options available salary mb hy maxOpt topt slots tbr,
          c.total_price = 0 ∧ ∀ q ∈ c.players, q.price = 0) := by
  intro available salary mb hy maxOpt topt slots tbr hpos
  have hres := generate_trade_options_ok available salary mb hy maxOpt topt slots tbr
  constructor
  · intro hneg
    rw [List.eq_nil_iff_forall_not_mem]
    intro c hc
    obtain ⟨rs, hne, hmem, hsum, hceq⟩ := hres.1 c hc
    have h0 : 0 ≤ (rs.map Row.price).sum := by
      refine List.sum_nonneg ?_
      intro x hx
      obtain ⟨r, hr, rfl⟩ := List.mem_map.mp hx
      exact hpos r (hmem r hr)
    linarith
  · intro h0eq c hc
    obtain ⟨rs, hne, hmem, hsum, hceq⟩ := hres.1 c hc
    have hprices : ∀ x ∈ rs.map Row.price, 0 ≤ x := by
      intro x hx
      obtain ⟨r, hr, rfl⟩ := List.mem_map.mp hx
      exact hpos r (hmem r hr)
    have hall0 : ∀ x ∈ rs.map Row.price, x = 0 :=
      sum_zero_each _ hprices (by rw [h0eq] at hsum; exact hsum)
    have hsum0 : (rs.map Row.price).sum = 0 :=
      List.sum_eq_zero hall0
    constructor
    · rw [hceq]
      exact hsum0
    · intro q hq
      rw [hceq] at hq
      obtain ⟨r, hr, rfl⟩ := List.mem_map.mp hq
      show r.price = 0
      exact hall0 r.price (List.mem_map_of_mem Row.price hr)

/-- Witness for C5 at a concrete run: a negative budget yields no options. -/
theorem nonpositive_budget_options_witness :
    generate_trade_options [witness_row] (-5) false false 10 none 2 false = [] :=
  (nonpositive_budget_options [witness_row] (-5) false false 10 none 2 false
    (by decide)).1 (by decide)
